import Mathlib

/-!
Verification development for the nexus repository (src/upload.js,
src/publish.js, src/upload.ps1): a shallow embedding of the
bounded-concurrency task scheduler `runWithConcurrencyLimit`, the
dependency-tree tarball collection `getTarBalls` / `createTarball`, the
orchestrator's dedup-and-sort step, the publish tasks of both scripts, and
the processes' exit-code behaviour, together with theorems settling the
frozen claims about them.
-/

namespace Nexus

/-! ## Task scheduler: `runWithConcurrencyLimit`
(upload.js lines 38-62, publish.js lines 60-84; both files contain the
identical function)

The JS event-loop semantics is modelled as a small-step transition system.
Promise callbacks (`.then` / `.catch` / `.finally`) always run as
microtasks, never synchronously, so the `while` loop of `runNext` runs to
completion before any settlement callback fires; a settlement therefore
executes atomically: write the result slot, decrement `running`, call
`runNext()`.  The set of started-but-unsettled task indices is `inflight`
(the counter `running` is its size), and which in-flight task settles next
is the nondeterminism of the step relation, so all completion orders are
covered. -/

/-- Settled outcome of a promise-returning task: fulfilled or rejected,
carrying the settlement value.  The scheduler's per-task handlers treat the
two alike (see `storedValue`). -/
inductive Outcome (V : Type) : Type where
  | fulfilled (v : V)
  | rejected (v : V)

/-- Value written into the `results` slot when a task settles:
`.then((result) => (results[currentIndex] = result))` for fulfilment and
`.catch((err) => (results[currentIndex] = err))` for rejection
(upload.js lines 52-53, publish.js lines 74-75) — the same slot, with no
tag or wrapper distinguishing the two cases. -/
def storedValue {V : Type} : Outcome V → V
  | .fulfilled v => v
  | .rejected v => v

/-- State of one run of `runWithConcurrencyLimit`: `nextIndex` is the
counter `i`, `inflight` the set of task indices started but not yet
settled (the counter `running` is `inflight.card`), `results` the slots
written so far (`none` = not yet assigned), and `resolved` records whether
`resolve(results)` has run. -/
structure SchedState (V : Type) where
  nextIndex : Nat
  inflight : Finset Nat
  results : Nat → Option V
  resolved : Bool

/-- Body of the `while` loop (upload.js lines 48-58): start task `i`
(`const currentIndex = i++; running++; tasks[currentIndex]()...`). -/
def startTask {V : Type} (s : SchedState V) : SchedState V :=
  { s with nextIndex := s.nextIndex + 1, inflight := insert s.nextIndex s.inflight }

/-- The `while (running < limit && i < tasks.length)` loop of `runNext`,
with explicit fuel: every iteration increments `i`, so `n - i` iterations
bound the loop.  `limit` is an integer, as in JS, so that non-positive
limits are representable. -/
def fillLoop {V : Type} (n : Nat) (limit : Int) : Nat → SchedState V → SchedState V
  | 0, s => s
  | fuel + 1, s =>
      if (s.inflight.card : Int) < limit ∧ s.nextIndex < n then
        fillLoop n limit fuel (startTask s)
      else s

/-- The `runNext` callback (upload.js lines 43-59): if
`i === tasks.length && running === 0` then `resolve(results)`, otherwise
start tasks while below the limit. -/
def runNext {V : Type} (n : Nat) (limit : Int) (s : SchedState V) : SchedState V :=
  if s.nextIndex = n ∧ s.inflight = ∅ then { s with resolved := true }
  else fillLoop n limit (n - s.nextIndex) s

/-- State at entry of the returned `Promise` executor: `results = []`,
`running = 0`, `i = 0`. -/
def initState {V : Type} : SchedState V :=
  ⟨0, ∅, fun _ => none, false⟩

/-- State after the executor's initial `runNext()` call — the start state
of the settlement transition system. -/
def schedInit {V : Type} (n : Nat) (limit : Int) : SchedState V :=
  runNext n limit initState

/-- Settlement of in-flight task `j` whose settled outcome is `o j`: the
`.then`/`.catch` handler writes the slot, then `.finally` decrements
`running` and calls `runNext()` (upload.js lines 51-57). -/
def settleStep {V : Type} (o : Nat → Outcome V) (n : Nat) (limit : Int)
    (j : Nat) (s : SchedState V) : SchedState V :=
  runNext n limit
    { s with
      inflight := s.inflight.erase j,
      results := fun k => if k = j then some (storedValue (o j)) else s.results k }

/-- One event-loop step: some in-flight task settles. -/
inductive Step {V : Type} (o : Nat → Outcome V) (n : Nat) (limit : Int) :
    SchedState V → SchedState V → Prop where
  | settle (s : SchedState V) (j : Nat) (hj : j ∈ s.inflight) :
      Step o n limit s (settleStep o n limit j s)

/-- States the scheduler can be in at some instant of some execution, for
tasks whose settled outcomes are given by `o`. -/
def Reachable {V : Type} (o : Nat → Outcome V) (n : Nat) (limit : Int)
    (s : SchedState V) : Prop :=
  Relation.ReflTransGen (Step o n limit) (schedInit n limit) s

/-! ### Scheduler invariants -/

/-- Data invariant of the scheduler state: indices started are exactly
`0..nextIndex-1`, a slot is written exactly when its task has started and
settled, at most `limit` tasks are in flight (for a positive limit), and
resolution happens only with everything settled. -/
structure SchedInv {V : Type} (o : Nat → Outcome V) (n : Nat) (limit : Int)
    (s : SchedState V) : Prop where
  i_le : s.nextIndex ≤ n
  inflight_lt : ∀ j ∈ s.inflight, j < s.nextIndex
  results_eq : ∀ j, s.results j =
    if j < s.nextIndex ∧ j ∉ s.inflight then some (storedValue (o j)) else none
  card_le : 1 ≤ limit → (s.inflight.card : Int) ≤ limit
  resolved_done : s.resolved = true → s.nextIndex = n ∧ s.inflight = ∅

variable {V : Type} {o : Nat → Outcome V} {n : Nat} {limit : Int}

theorem schedInv_startTask {s : SchedState V} (h : SchedInv o n limit s)
    (hin : s.nextIndex < n) (hc : (s.inflight.card : Int) < limit) :
    SchedInv o n limit (startTask s) := by
  have hnotmem : s.nextIndex ∉ s.inflight := fun hm =>
    absurd (h.inflight_lt _ hm) (lt_irrefl _)
  refine ⟨?_, ?_, ?_, ?_, ?_⟩ <;> dsimp only [startTask]
  · exact hin
  · intro j hj
    rcases Finset.mem_insert.mp hj with rfl | hj
    · exact Nat.lt_succ_self _
    · exact Nat.lt_succ_of_lt (h.inflight_lt _ hj)
  · intro j
    by_cases hje : j = s.nextIndex
    · rw [hje, h.results_eq s.nextIndex,
        if_neg (fun hcon => absurd hcon.1 (lt_irrefl _)), if_neg]
      rintro ⟨-, hnot⟩
      exact hnot (Finset.mem_insert_self _ _)
    · have hmem : j ∈ insert s.nextIndex s.inflight ↔ j ∈ s.inflight := by
        simp [Finset.mem_insert, hje]
      have hlt : j < s.nextIndex + 1 ↔ j < s.nextIndex := by
        constructor
        · intro hl
          rcases Nat.lt_succ_iff_lt_or_eq.mp hl with hl | hl
          · exact hl
          · exact absurd hl hje
        · exact Nat.lt_succ_of_lt
      rw [h.results_eq j]
      by_cases hcond : j < s.nextIndex ∧ j ∉ s.inflight
      · rw [if_pos hcond, if_pos ⟨hlt.mpr hcond.1, fun hm => hcond.2 (hmem.mp hm)⟩]
      · rw [if_neg hcond, if_neg]
        intro hcon
        exact hcond ⟨hlt.mp hcon.1, fun hm => hcon.2 (hmem.mpr hm)⟩
  · intro _
    rw [Finset.card_insert_of_not_mem hnotmem]
    push_cast
    omega
  · intro hr
    rcases h.resolved_done hr with ⟨hn, -⟩
    exact absurd hn (Nat.ne_of_lt hin)

theorem schedInv_fillLoop : ∀ (fuel : Nat) {s : SchedState V},
    SchedInv o n limit s → SchedInv o n limit (fillLoop n limit fuel s)
  | 0, _, h => h
  | fuel + 1, s, h => by
    rw [fillLoop]
    by_cases hc : (s.inflight.card : Int) < limit ∧ s.nextIndex < n
    · rw [if_pos hc]
      exact schedInv_fillLoop fuel (schedInv_startTask h hc.2 hc.1)
    · rw [if_neg hc]
      exact h

theorem schedInv_runNext {s : SchedState V} (h : SchedInv o n limit s) :
    SchedInv o n limit (runNext n limit s) := by
  rw [runNext]
  by_cases hc : s.nextIndex = n ∧ s.inflight = ∅
  · rw [if_pos hc]
    exact ⟨h.i_le, h.inflight_lt, h.results_eq, h.card_le, fun _ => hc⟩
  · rw [if_neg hc]
    exact schedInv_fillLoop _ h

theorem schedInv_initState : SchedInv o n limit (initState : SchedState V) := by
  refine ⟨Nat.zero_le _, ?_, ?_, ?_, ?_⟩ <;> dsimp only [initState]
  · intro j hj
    exact absurd hj (Finset.not_mem_empty j)
  · intro j
    rw [if_neg]
    rintro ⟨hj, -⟩
    exact absurd hj (Nat.not_lt_zero j)
  · intro h1
    rw [Finset.card_empty]
    omega
  · intro hr
    exact absurd hr (by simp)

theorem schedInv_init : SchedInv o n limit (schedInit n limit : SchedState V) :=
  schedInv_runNext schedInv_initState

/-- The intermediate state of a settlement, after the `.then`/`.catch`
slot write and the `running--` but before the recursive `runNext()`,
preserves the data invariant. -/
theorem schedInv_settleMid {s : SchedState V} (h : SchedInv o n limit s)
    {j : Nat} (hj : j ∈ s.inflight) :
    SchedInv o n limit
      { s with
        inflight := s.inflight.erase j,
        results := fun k => if k = j then some (storedValue (o j)) else s.results k } := by
  refine ⟨?_, ?_, ?_, ?_, ?_⟩ <;> dsimp only
  · exact h.i_le
  · intro k hk
    exact h.inflight_lt _ (Finset.mem_of_mem_erase hk)
  · intro k
    by_cases hkj : k = j
    · rw [hkj, if_pos rfl, if_pos ⟨h.inflight_lt _ hj, Finset.not_mem_erase _ _⟩]
    · have hmem : k ∈ s.inflight.erase j ↔ k ∈ s.inflight := by
        simp [Finset.mem_erase, hkj]
      rw [if_neg hkj, h.results_eq k]
      by_cases hcond : k < s.nextIndex ∧ k ∉ s.inflight
      · rw [if_pos hcond, if_pos ⟨hcond.1, fun hm => hcond.2 (hmem.mp hm)⟩]
      · rw [if_neg hcond, if_neg]
        intro hcon
        exact hcond ⟨hcon.1, fun hm => hcon.2 (hmem.mpr hm)⟩
  · intro h1
    calc (((s.inflight.erase j).card : Int)) ≤ (s.inflight.card : Int) := by
          exact_mod_cast Finset.card_le_card (Finset.erase_subset _ _)
      _ ≤ limit := h.card_le h1
  · intro hr
    rcases h.resolved_done hr with ⟨-, he⟩
    rw [he] at hj
    exact absurd hj (Finset.not_mem_empty j)

theorem schedInv_settleStep {s : SchedState V} (h : SchedInv o n limit s)
    {j : Nat} (hj : j ∈ s.inflight) :
    SchedInv o n limit (settleStep o n limit j s) :=
  schedInv_runNext (schedInv_settleMid h hj)

theorem schedInv_reachable {s : SchedState V} (hs : Reachable o n limit s) :
    SchedInv o n limit s := by
  induction hs with
  | refl => exact schedInv_init
  | tail _ hstep ih =>
    cases hstep with
    | settle j hj => exact schedInv_settleStep ih hj

/-! ### Progress, termination and the non-positive-limit behaviour -/

theorem fillLoop_resolved : ∀ (fuel : Nat) (s : SchedState V),
    (fillLoop n limit fuel s).resolved = s.resolved
  | 0, _ => rfl
  | fuel + 1, s => by
    rw [fillLoop]
    by_cases hc : (s.inflight.card : Int) < limit ∧ s.nextIndex < n
    · rw [if_pos hc, fillLoop_resolved fuel]
      rfl
    · rw [if_neg hc]

theorem fillLoop_inflight_subset : ∀ (fuel : Nat) (s : SchedState V),
    s.inflight ⊆ (fillLoop n limit fuel s).inflight
  | 0, _ => Finset.Subset.refl _
  | fuel + 1, s => by
    rw [fillLoop]
    by_cases hc : (s.inflight.card : Int) < limit ∧ s.nextIndex < n
    · rw [if_pos hc]
      exact Finset.Subset.trans (Finset.subset_insert _ _)
        (fillLoop_inflight_subset fuel (startTask s))
    · rw [if_neg hc]

/-- After `runNext`, an unresolved scheduler (with a positive limit) always
has at least one task in flight: this is why the promise, once unresolved
with nothing running, can never settle later. -/
theorem runNext_progress {s : SchedState V} (h : SchedInv o n limit s)
    (h1 : 1 ≤ limit) (hres : (runNext n limit s).resolved = false) :
    (runNext n limit s).inflight.Nonempty := by
  rw [runNext] at hres ⊢
  by_cases hc : s.nextIndex = n ∧ s.inflight = ∅
  · rw [if_pos hc] at hres
    exact absurd hres (by simp)
  · rw [if_neg hc] at hres ⊢
    by_cases he : s.inflight = ∅
    · have hin : s.nextIndex < n := by
        rcases Nat.lt_or_ge s.nextIndex n with hlt | hge
        · exact hlt
        · exact absurd ⟨Nat.le_antisymm h.i_le hge, he⟩ hc
      have hfuel : ∃ f, n - s.nextIndex = f + 1 := by
        have : 1 ≤ n - s.nextIndex := by omega
        exact ⟨n - s.nextIndex - 1, by omega⟩
      rcases hfuel with ⟨f, hf⟩
      rw [hf, fillLoop, if_pos ⟨by rw [he]; simpa using h1, hin⟩]
      refine Finset.Nonempty.mono
        (fillLoop_inflight_subset f (startTask s)) ?_
      exact ⟨s.nextIndex, Finset.mem_insert_self _ _⟩
    · exact Finset.Nonempty.mono (fillLoop_inflight_subset _ s)
        (Finset.nonempty_iff_ne_empty.mpr he)

/-- Reachable unresolved states always have a task in flight (for a
positive limit). -/
theorem reachable_progress {s : SchedState V} (hs : Reachable o n limit s)
    (h1 : 1 ≤ limit) (hres : s.resolved = false) : s.inflight.Nonempty := by
  induction hs with
  | refl => exact runNext_progress (o := o) schedInv_initState h1 hres
  | tail hpre hstep ih =>
    cases hstep with
    | settle j hj =>
      exact runNext_progress
        (schedInv_settleMid (schedInv_reachable hpre) hj) h1 hres

/-- Termination measure: twice the number of unstarted tasks plus the
number of in-flight tasks.  Every settlement step strictly decreases it. -/
def measureOf (n : Nat) (s : SchedState V) : Nat :=
  2 * (n - s.nextIndex) + s.inflight.card

theorem measureOf_fillLoop : ∀ (fuel : Nat) (s : SchedState V),
    measureOf n (fillLoop n limit fuel s) ≤ measureOf n s
  | 0, _ => le_refl _
  | fuel + 1, s => by
    rw [fillLoop]
    by_cases hc : (s.inflight.card : Int) < limit ∧ s.nextIndex < n
    · rw [if_pos hc]
      refine le_trans (measureOf_fillLoop fuel (startTask s)) ?_
      have hcard : (startTask s).inflight.card ≤ s.inflight.card + 1 :=
        Finset.card_insert_le _ _
      have hin : s.nextIndex < n := hc.2
      dsimp only [startTask, measureOf] at *
      omega
    · rw [if_neg hc]

theorem measureOf_runNext (s : SchedState V) :
    measureOf n (runNext n limit s) ≤ measureOf n s := by
  rw [runNext]
  by_cases hc : s.nextIndex = n ∧ s.inflight = ∅
  · rw [if_pos hc]
    exact le_refl _
  · rw [if_neg hc]
    exact measureOf_fillLoop _ s

theorem measureOf_settleStep {s : SchedState V} {j : Nat}
    (hj : j ∈ s.inflight) :
    measureOf n (settleStep o n limit j s) < measureOf n s := by
  refine lt_of_le_of_lt (measureOf_runNext _) ?_
  have hcard : (s.inflight.erase j).card = s.inflight.card - 1 :=
    Finset.card_erase_of_mem hj
  have hpos : 0 < s.inflight.card := Finset.card_pos.mpr ⟨j, hj⟩
  dsimp only [measureOf]
  omega

/-- From any reachable state (positive limit), some continuation of the
execution resolves the promise: proved by strong induction on the
termination measure, stepping via `reachable_progress`. -/
theorem exists_resolved_from (h1 : 1 ≤ limit) :
    ∀ (k : Nat) (s : SchedState V), measureOf n s ≤ k → Reachable o n limit s →
      ∃ t, Relation.ReflTransGen (Step o n limit) s t ∧ t.resolved = true := by
  intro k
  induction k with
  | zero =>
    intro s hm hs
    by_cases hres : s.resolved = true
    · exact ⟨s, Relation.ReflTransGen.refl, hres⟩
    · rcases reachable_progress hs h1 (Bool.not_eq_true _ ▸ hres) with ⟨j, hj⟩
      have := @measureOf_settleStep V o n limit s j hj
      omega
  | succ k ih =>
    intro s hm hs
    by_cases hres : s.resolved = true
    · exact ⟨s, Relation.ReflTransGen.refl, hres⟩
    · rcases reachable_progress hs h1 (Bool.not_eq_true _ ▸ hres) with ⟨j, hj⟩
      have hstep : Step o n limit s (settleStep o n limit j s) :=
        Step.settle s j hj
      have hm' : measureOf n (settleStep o n limit j s) ≤ k := by
        have := @measureOf_settleStep V o n limit s j hj
        omega
      rcases ih (settleStep o n limit j s) hm'
          (Relation.ReflTransGen.tail hs hstep) with ⟨t, htr, htres⟩
      exact ⟨t, Relation.ReflTransGen.head hstep htr, htres⟩

/-- In a resolved state the result slot of every task holds the stored
settlement value of that task. -/
theorem resolved_results {s : SchedState V} (h : SchedInv o n limit s)
    (hr : s.resolved = true) {j : Nat} (hj : j < n) :
    s.results j = some (storedValue (o j)) := by
  rcases h.resolved_done hr with ⟨hn, he⟩
  rw [h.results_eq j, if_pos]
  exact ⟨hn ▸ hj, by simp [he]⟩

/-- With a non-positive limit the `while` condition `running < limit` is
false from the start, so the loop never starts a task. -/
theorem fillLoop_of_nonpos (hl : limit ≤ 0) :
    ∀ (fuel : Nat) (s : SchedState V), fillLoop n limit fuel s = s := by
  intro fuel s
  cases fuel with
  | zero => rfl
  | succ f =>
    rw [fillLoop, if_neg]
    rintro ⟨hc, -⟩
    have : (0 : Int) ≤ (s.inflight.card : Int) := Int.natCast_nonneg _
    omega

theorem schedInit_of_nonpos (hl : limit ≤ 0) (hn : 1 ≤ n) :
    (schedInit n limit : SchedState V) = initState := by
  rw [schedInit, runNext, if_neg, fillLoop_of_nonpos hl]
  rintro ⟨hc, -⟩
  dsimp only [initState] at hc
  omega

theorem no_step_of_empty {s t : SchedState V} (he : s.inflight = ∅) :
    ¬ Step o n limit s t := by
  intro hstep
  cases hstep with
  | settle j hj =>
    rw [he] at hj
    exact absurd hj (Finset.not_mem_empty j)

/-- With a non-positive limit and at least one task, the scheduler is
stuck at its initial state: no task ever starts and no settlement event
can ever occur. -/
theorem reachable_of_nonpos (hl : limit ≤ 0) (hn : 1 ≤ n)
    {s : SchedState V} (hs : Reachable o n limit s) : s = initState := by
  induction hs with
  | refl => exact schedInit_of_nonpos hl hn
  | tail hpre hstep ih =>
    rw [ih] at hstep
    exact absurd hstep (no_step_of_empty rfl)

/-- The step relation depends on the task outcomes only through the stored
value (`.then` and `.catch` write the same untagged slot). -/
theorem step_congr {o₁ o₂ : Nat → Outcome V}
    (h : storedValue ∘ o₁ = storedValue ∘ o₂) {s t : SchedState V} :
    Step o₁ n limit s t → Step o₂ n limit s t := by
  intro hstep
  cases hstep with
  | settle j hj =>
    have hv : storedValue (o₁ j) = storedValue (o₂ j) := congrFun h j
    have : settleStep o₁ n limit j s = settleStep o₂ n limit j s := by
      rw [settleStep, settleStep, hv]
    rw [this]
    exact Step.settle s j hj

/-- The promise of `runWithConcurrencyLimit` never resolves. -/
def neverResolves {V : Type} (o : Nat → Outcome V) (n : Nat) (limit : Int) : Prop :=
  ∀ s : SchedState V, Reachable o n limit s → s.resolved = false

/-! ### Claims about the scheduler -/

/-- C1: for every task list and every limit ≥ 1, `runWithConcurrencyLimit`
resolves (some execution reaches a resolved state, and by the measure
argument every maximal one does), and in every resolved state of every
execution — hence regardless of completion order — the result sequence has
one entry per task and entry `i` is the settled outcome of `tasks[i]`. -/
theorem scheduler_results_aligned {V : Type} (o : Nat → Outcome V) (n : Nat)
    (limit : Int) (h1 : 1 ≤ limit) :
    (∃ t, Reachable o n limit t ∧ t.resolved = true) ∧
    ∀ s, Reachable o n limit s → s.resolved = true →
      (List.ofFn fun j : Fin n => s.results j).length = n ∧
      (List.ofFn fun j : Fin n => s.results j) =
        (List.ofFn fun j : Fin n => some (storedValue (o j))) := by
  constructor
  · rcases exists_resolved_from h1 (measureOf n (schedInit n limit))
        (schedInit n limit) (le_refl _) Relation.ReflTransGen.refl with ⟨t, htr, htres⟩
    exact ⟨t, htr, htres⟩
  · intro s hs hres
    refine ⟨by simp, ?_⟩
    exact congrArg List.ofFn (funext fun j =>
      resolved_results (schedInv_reachable hs) hres j.isLt)

theorem scheduler_results_aligned_witness :
    (1 : Int) ≤ 1 ∧
    ((∃ t, Reachable (fun j => Outcome.fulfilled j) 2 1 t ∧ t.resolved = true) ∧
     ∀ s, Reachable (fun j => Outcome.fulfilled j) 2 1 s → s.resolved = true →
       (List.ofFn fun j : Fin 2 => s.results j).length = 2 ∧
       (List.ofFn fun j : Fin 2 => s.results j) =
         (List.ofFn fun j : Fin 2 => some (storedValue (Outcome.fulfilled j.1)))) :=
  ⟨le_refl 1, scheduler_results_aligned (fun j => Outcome.fulfilled j) 2 1 (le_refl 1)⟩

/-- C2: for every task list and every limit ≥ 1, at every instant of every
execution of `runWithConcurrencyLimit` the number of tasks started but not
yet settled is at most `limit`. -/
theorem scheduler_inflight_bounded {V : Type} (o : Nat → Outcome V) (n : Nat)
    (limit : Int) (h1 : 1 ≤ limit) {s : SchedState V}
    (hs : Reachable o n limit s) : (s.inflight.card : Int) ≤ limit :=
  (schedInv_reachable hs).card_le h1

theorem scheduler_inflight_bounded_witness :
    (1 : Int) ≤ 1 ∧ (((schedInit 2 1 : SchedState Nat).inflight.card : Int)) ≤ 1 :=
  ⟨le_refl 1,
   scheduler_inflight_bounded (fun _ => Outcome.fulfilled 0) 2 1 (le_refl 1)
     Relation.ReflTransGen.refl⟩

/-- C8 counterexample: the claim says that for a non-empty task list and
`limit ≤ 0` the scheduler fails (`SchedulerMisuseError`, fatal and
immediate).  The code contains no validation and no error of that name:
with one task and `limit = 0` the `while (running < limit && ...)` guard
is false at once, no task starts, `resolve` never runs and the promise
never rejects — the run hangs unresolved forever instead of failing. -/
theorem scheduler_zero_limit_hangs_cex :
    neverResolves (fun _ => Outcome.fulfilled (0 : Nat)) 1 0 := by
  intro s hs
  rw [reachable_of_nonpos (le_refl 0) (le_refl 1) hs]
  rfl

/-- C8 (amended): `runWithConcurrencyLimit` performs no validation at all.
For every `limit ≤ 0` and every non-empty task list it starts no task,
writes no result slot and never settles: the returned promise neither
rejects (fails) nor resolves (signals completion) — every reachable state
is the initial one, unresolved. -/
theorem scheduler_no_validation_never_resolves {V : Type} (o : Nat → Outcome V)
    (n : Nat) (limit : Int) (hl : limit ≤ 0) (hn : 1 ≤ n) :
    neverResolves o n limit ∧
    ∀ s : SchedState V, Reachable o n limit s →
      s.inflight = ∅ ∧ ∀ j, s.results j = none := by
  constructor
  · intro s hs
    rw [reachable_of_nonpos hl hn hs]
    rfl
  · intro s hs
    rw [reachable_of_nonpos hl hn hs]
    exact ⟨rfl, fun _ => rfl⟩

theorem scheduler_no_validation_never_resolves_witness :
    (0 : Int) ≤ 0 ∧ 1 ≤ 1 ∧
    neverResolves (fun _ => Outcome.fulfilled (5 : Nat)) 1 0 :=
  ⟨le_refl 0, le_refl 1,
   (scheduler_no_validation_never_resolves (fun _ => Outcome.fulfilled (5 : Nat))
     1 0 (le_refl 0) (le_refl 1)).1⟩

/-- C10: a task that rejects with `e` and a task that fulfils with `e`
produce the very same stored slot value, with no tag or wrapper: whenever
two outcome assignments agree after `storedValue` (in particular, one
rejecting with `e` where the other fulfils with `e`), the schedulers
driven by them have exactly the same executions — same reachable states,
hence identical result sequences — so a caller cannot tell from the
results whether a slot succeeded or failed. -/
theorem scheduler_rejection_untagged {V : Type} (o₁ o₂ : Nat → Outcome V)
    (n : Nat) (limit : Int) (h : storedValue ∘ o₁ = storedValue ∘ o₂)
    (s : SchedState V) : Reachable o₁ n limit s ↔ Reachable o₂ n limit s :=
  ⟨fun hs => Relation.ReflTransGen.mono (fun _ _ hst => step_congr h hst) hs,
   fun hs => Relation.ReflTransGen.mono (fun _ _ hst => step_congr (h.symm) hst) hs⟩

theorem scheduler_rejection_untagged_witness :
    (storedValue ∘ (fun _ : Nat => Outcome.fulfilled (7 : Nat))
      = storedValue ∘ (fun _ : Nat => Outcome.rejected (7 : Nat))) ∧
    (Reachable (fun _ : Nat => Outcome.fulfilled (7 : Nat)) 2 1 (schedInit 2 1) ↔
     Reachable (fun _ : Nat => Outcome.rejected (7 : Nat)) 2 1 (schedInit 2 1)) :=
  ⟨funext fun _ => rfl,
   scheduler_rejection_untagged (fun _ : Nat => Outcome.fulfilled (7 : Nat))
     (fun _ : Nat => Outcome.rejected (7 : Nat)) 2 1 (funext fun _ => rfl) _⟩

/-! ## Tarball collection: `getTarBalls` / `createTarball` (upload.js) -/

/-- Entry pushed into the shared `tarBalls` array:
`{ tarball, name, version }` (upload.js lines 86, 158). -/
structure DepEntry where
  tarball : String
  name : String
  version : String
deriving DecidableEq

/-- Node of the `npm ls --json --all` dependency tree as consumed by
`getTarBalls`: a dependency name mapped to an object with a `version`, an
optional `resolved` URL and nested `dependencies` (`Object.entries`
preserves insertion order, modelled by the list order). -/
inductive DepTree : Type where
  | node (name version : String) (resolved : Option String)
      (dependencies : List DepTree)

/-- Sanitisation of a package name, upload.js line 81:
`name.replace(/@/g, "")` removes every `@`, then `.replace(/\//g, "-")`
turns every `/` into `-`. -/
def sanitizeName (name : String) : String :=
  String.mk ((name.data.filter (fun c => c ≠ '@')).map
    (fun c => if c = '/' then '-' else c))

/-- Conventional archive file name computed in `getTarBalls`,
upload.js line 81: `${sanitized}-${object.version}.tgz`. -/
def tarballFileName (name version : String) : String :=
  sanitizeName name ++ "-" ++ version ++ ".tgz"

/-- The same file-name formula as recomputed inside the URL branch of
`createTarball`, upload.js line 134. -/
def createTarballFileName (name version : String) : String :=
  sanitizeName name ++ "-" ++ version ++ ".tgz"

/-- Conventional archive path `./archives/${fileName}` checked by the
cache `stat`, upload.js line 82. -/
def archivePathOf (name version : String) : String :=
  "./archives/" ++ tarballFileName name version

/-- Path `./archives/${fileName}` written by the URL branch of
`createTarball`, upload.js line 135. -/
def createTarballWrittenPath (name version : String) : String :=
  "./archives/" ++ createTarballFileName name version

/-- Externally visible operations of the fetch/publish pipeline: a network
transfer and the npm subprocess invocations. -/
inductive Effect : Type where
  | fetchUrl (url : String)
  | execNpmPack (pkg : String)
  | execNpmView (name version : String)
  | execNpmPublish (tarball : String)
deriving DecidableEq

/-- Origin classification of a completed per-package artifact, following
the spec's `ArtifactRecord.origin` enum; upload.js has no such field, so
the tag records which branch of `getTarBalls`/`createTarball` pushed the
entry. -/
inductive Origin : Type where
  | Cached
  | Fetched
  | Packed
deriving DecidableEq

/-- Result of one per-package artifact acquisition: the entries pushed to
`tarBalls` (zero or one), the external effects performed, and the new
contents of `./archives`. -/
structure FetchResult where
  pushed : List (DepEntry × Origin)
  effects : List Effect
  fs : List String
deriving DecidableEq

/-- Per-package artifact acquisition of one `getTarBalls` task (upload.js
lines 81-89) together with `createTarball` (lines 107-160).  `fs` is the
set of paths present under `./archives`; `packOutput name version` is the
file name printed by `npm pack` (an external oracle).  External operations
are modelled on their success path (a failed fetch or pack rejects the
task; rejection capture is settled at the scheduler, claims C1/C10).

Branches, exactly as in the source:
* the conventional path already exists (`stat` succeeds, line 84): push
  the entry, perform no effect (lines 85-86);
* otherwise, with a `resolved` URL (lines 124-142): download and write the
  file at the conventional path; back in `createTarball` the `stat` at
  line 145 finds the just-written file, so line 148 returns without
  pushing any entry;
* otherwise `npm pack` (lines 111-122, with `pkgName` per line 113): the
  produced file is renamed to `./archives/<packOutput>`; if that
  destination already existed line 148 returns without pushing, else the
  entry is pushed (line 158). -/
def fetchArtifact (packOutput : String → String → String) (fs : List String)
    (name version : String) (resolved : Option String) : FetchResult :=
  if archivePathOf name version ∈ fs then
    { pushed := [(⟨archivePathOf name version, name, version⟩, Origin.Cached)],
      effects := [], fs := fs }
  else
    match resolved with
    | some url =>
        { pushed := [],
          effects := [Effect.fetchUrl url],
          fs := createTarballWrittenPath name version :: fs }
    | none =>
        let pkg := if version = "" then name else name ++ "@" ++ version
        let dest := "./archives/" ++ packOutput name version
        if dest ∈ fs then
          { pushed := [], effects := [Effect.execNpmPack pkg], fs := fs }
        else
          { pushed := [(⟨dest, name, version⟩, Origin.Packed)],
            effects := [Effect.execNpmPack pkg],
            fs := dest :: fs }

/-- Sequential semantics of `getTarBalls` (upload.js lines 70-98): the
task of a dependency entry pushes its own artifact entry (or not), then
the recursive `getTarBalls(object.dependencies)` call contributes all
descendant entries (lines 90-93), then the next sibling task runs.  The
scheduler may interleave sibling tasks (limit 10); this deterministic
model fixes the input-order interleaving, one admissible completion
order.  `fs` threads the contents of `./archives`. -/
def collectForest (packOutput : String → String → String) :
    List String → List DepTree → List DepEntry × List String
  | fs, [] => ([], fs)
  | fs, DepTree.node nm v r cs :: rest =>
      let fr := fetchArtifact packOutput fs nm v r
      let child := collectForest packOutput fr.fs cs
      let sib := collectForest packOutput child.2 rest
      (fr.pushed.map Prod.fst ++ child.1 ++ sib.1, sib.2)

/-- Identity keys `name@version` of the nodes processed by `getTarBalls`,
in traversal order: the code runs one task per node occurrence, with no
visited set, so a repeated key appears once per occurrence. -/
def visitKeys : List DepTree → List String
  | [] => []
  | DepTree.node nm v _ cs :: rest =>
      (nm ++ "@" ++ v) :: (visitKeys cs ++ visitKeys rest)

/-- Number of node occurrences in a dependency forest. -/
def nodeCount : List DepTree → Nat
  | [] => 0
  | DepTree.node _ _ _ cs :: rest => 1 + nodeCount cs + nodeCount rest

/-- One step of the deduplicating `reduce` in `main` (upload.js
lines 208-213): append the entry unless some accumulated entry already
has the same `tarball` path. -/
def dedupStep (acc : List DepEntry) (e : DepEntry) : List DepEntry :=
  if acc.any (fun x => x.tarball = e.tarball) then acc else acc ++ [e]

/-- The whole `reduce((acc, entry) => ..., [])` of upload.js
lines 208-213. -/
def dedupByTarball (l : List DepEntry) : List DepEntry :=
  l.foldl dedupStep []

/-- Order of the `sort` in `main` (upload.js line 214):
`(a, b) => a.tarball.localeCompare(b.tarball)`, lexicographic comparison
of the tarball paths. -/
def entryLe (a b : DepEntry) : Prop := a.tarball ≤ b.tarball

instance : DecidableRel entryLe := fun a b =>
  inferInstanceAs (Decidable (a.tarball ≤ b.tarball))

instance : IsTotal DepEntry entryLe := ⟨fun a b => le_total a.tarball b.tarball⟩

instance : IsTrans DepEntry entryLe := ⟨fun _ _ _ h h2 => le_trans h h2⟩

/-- Orchestrator pipeline of `main` (upload.js lines 206-214): collect,
deduplicate by tarball path keeping first occurrences, then sort by
tarball path.  `Array.prototype.sort` is specified only through the
comparator; on the duplicate-free deduplicated list the sorted result is
unique, so insertion sort models it exactly. -/
def flattenMain (packOutput : String → String → String) (fs : List String)
    (deps : List DepTree) : List DepEntry :=
  List.insertionSort entryLe (dedupByTarball (collectForest packOutput fs deps).1)

/-- Pre-order `(name, version)` pairs of a dependency forest
(parent before children, left-to-right among siblings). -/
def preorderRefs : List DepTree → List (String × String)
  | [] => []
  | DepTree.node nm v _ cs :: rest =>
      (nm, v) :: (preorderRefs cs ++ preorderRefs rest)

/-- Follows the spec's words (§4.2, DependencyFlattener contract), for
comparison with `flattenMain`: each distinct `name@version` ref exactly
once, at the position of its first encounter in a pre-order
(parent-before-children, left-to-right among siblings) traversal. -/
def specFlattenRefs (deps : List DepTree) : List (String × String) :=
  (preorderRefs deps).foldl (fun acc e => if e ∈ acc then acc else acc ++ [e]) []

/-! ## Publish tasks -/

/-- Resolution value of one publish task. -/
inductive PubOutcome : Type where
  | alreadyPublished (msg : String)
  | published
deriving DecidableEq

/-- One publish task of upload.js `publishTarballs` (lines 168-193):
`npm view name@version --registry ...` decides `alreadyPublished` (its
callback resolves `!error`; the oracle `registryHas` gives that answer);
if already published, resolve with the skip message (lines 174-177)
without running `npm publish`; otherwise run `npm publish`
(lines 179-192, success path — a publish error rejects the task). -/
def publishTaskUpload (registryHas : String → String → Bool) (e : DepEntry) :
    PubOutcome × List Effect :=
  if registryHas e.name e.version then
    (PubOutcome.alreadyPublished ("Tarball already published: " ++ e.tarball),
     [Effect.execNpmView e.name e.version])
  else
    (PubOutcome.published,
     [Effect.execNpmView e.name e.version, Effect.execNpmPublish e.tarball])

/-- One publish task of publish.js `publishTarballs` (lines 93-109): no
existence check of any kind — `npm publish` is always invoked
(success path). -/
def publishTaskPublishJs (tarball : String) : PubOutcome × List Effect :=
  (PubOutcome.published, [Effect.execNpmPublish tarball])

/-! ## Process exit codes -/

/-- Exit code of the upload.js process (lines 202-231).  Fetch and publish
failures are captured into scheduler result slots (`Sum.inl` below) and
`main` never reads them (`publishResults`, line 216, is unused);
reaching the end of `main` ends the process with code 0.  Only a
rejection of `main` itself hits `main().catch` (lines 228-231), which is
the sole `process.exit(1)`. -/
def uploadJsExitCode {E V : Type} (run : Except E (List (Sum E V))) : Nat :=
  match run with
  | Except.error _ => 1
  | Except.ok _ => 0

/-- Exit code of the publish.js process (lines 119-141): after
`publishTarballs` the results are ignored and `process.exit(0)` runs
unconditionally (line 134); only a rejection of `main` reaches the
handler of lines 138-141 and exits with code 1. -/
def publishJsExitCode {E V : Type} (run : Except E (List (Sum E V))) : Nat :=
  match run with
  | Except.error _ => 1
  | Except.ok _ => 0

/-- Exit status of upload.ps1: per-package failures are appended to
`$script:Errors` (lines 45-50, 70-75) and the collected list is printed at
the end (lines 98-104), but the script never sets an exit code, so it ends
with status 0 whatever the list contains. -/
def uploadPs1ExitCode (_errors : List String) : Nat := 0

/-! ## Claims about collection, paths, publishing and exit codes -/

theorem dedup_aux_tarball_nodup : ∀ (l acc : List DepEntry),
    (acc.map DepEntry.tarball).Nodup →
    ((l.foldl dedupStep acc).map DepEntry.tarball).Nodup
  | [], _, h => h
  | e :: l, acc, h => by
    rw [List.foldl_cons]
    apply dedup_aux_tarball_nodup l
    rw [dedupStep]
    by_cases hc : (acc.any fun x => x.tarball = e.tarball) = true
    · rw [if_pos hc]
      exact h
    · rw [if_neg hc, List.map_append]
      have hnot : e.tarball ∉ acc.map DepEntry.tarball := by
        simp only [List.any_eq_true, decide_eq_true_eq] at hc
        intro hm
        rcases List.mem_map.mp hm with ⟨x, hx, hxe⟩
        exact hc ⟨x, hx, hxe⟩
      refine List.Nodup.append h (List.nodup_singleton _) ?_
      intro a ha hb
      rw [List.map_singleton, List.mem_singleton] at hb
      rw [hb] at ha
      exact hnot ha

theorem dedupByTarball_nodup (l : List DepEntry) :
    ((dedupByTarball l).map DepEntry.tarball).Nodup :=
  dedup_aux_tarball_nodup l [] (by simp)

/-- C3 (amended): for every input graph and every initial state of the
`./archives` directory, the orchestrator's output (`getTarBalls` followed
by the dedup-and-sort of `main`) contains pairwise-distinct tarball paths
(each collected path exactly once), is a permutation of the first-kept
deduplication of the collection, and is ordered by lexicographic
comparison of the tarball path — not by pre-order first-encounter
position.  Stability across runs is immediate: `flattenMain` is a
function of its input. -/
theorem flatten_dedup_sorted (packOutput : String → String → String)
    (fs : List String) (deps : List DepTree) :
    ((flattenMain packOutput fs deps).map DepEntry.tarball).Nodup ∧
    List.Sorted entryLe (flattenMain packOutput fs deps) ∧
    List.Perm (flattenMain packOutput fs deps)
      (dedupByTarball (collectForest packOutput fs deps).1) := by
  refine ⟨?_, ?_, ?_⟩
  · exact ((List.perm_insertionSort entryLe
        (dedupByTarball (collectForest packOutput fs deps).1)).map
        DepEntry.tarball).symm.nodup
      (dedupByTarball_nodup _)
  · exact List.sorted_insertionSort entryLe _
  · exact List.perm_insertionSort entryLe _

/-- C3 counterexample: the claim puts each ref at its first pre-order
position; the code sorts instead, and the URL-download branch can drop a
ref entirely.  With two cached sibling packages listed as `b` then `a`,
pre-order first encounter (the spec-side `specFlattenRefs`) yields
`[b, a]` while the code emits `[a, b]` (sorted by path).  And for a single
uncached package `c` with a `resolved` URL, `createTarball` writes the
file then finds it existing (upload.js line 145-148) and pushes nothing:
the output is empty although the spec-side flatten lists `c@1.0.0`. -/
theorem flatten_not_preorder_cex :
    (flattenMain tarballFileName
        [archivePathOf "b" "1.0.0", archivePathOf "a" "1.0.0"]
        [DepTree.node "b" "1.0.0" none [], DepTree.node "a" "1.0.0" none []]).map
        (fun e => (e.name, e.version)) = [("a", "1.0.0"), ("b", "1.0.0")] ∧
    specFlattenRefs [DepTree.node "b" "1.0.0" none [], DepTree.node "a" "1.0.0" none []]
      = [("b", "1.0.0"), ("a", "1.0.0")] ∧
    flattenMain tarballFileName []
        [DepTree.node "c" "1.0.0" (some "http://reg/c/-/c-1.0.0.tgz") []] = [] ∧
    specFlattenRefs [DepTree.node "c" "1.0.0" (some "http://reg/c/-/c-1.0.0.tgz") []]
      = [("c", "1.0.0")] := by
  have hba : ¬ entryLe ⟨archivePathOf "b" "1.0.0", "b", "1.0.0"⟩
      ⟨archivePathOf "a" "1.0.0", "a", "1.0.0"⟩ := by
    show ¬ (archivePathOf "b" "1.0.0" ≤ archivePathOf "a" "1.0.0")
    rw [String.le_iff_toList_le]
    decide
  refine ⟨?_, ?_, ?_, ?_⟩
  · simp +decide [flattenMain, collectForest, fetchArtifact, dedupByTarball,
      dedupStep, List.insertionSort, List.orderedInsert, hba]
  · simp [specFlattenRefs, preorderRefs]
  · simp +decide [flattenMain, collectForest, fetchArtifact, dedupByTarball,
      dedupStep, List.insertionSort]
  · simp [specFlattenRefs, preorderRefs]

/-- C4 (amended): `getTarBalls` does terminate on every finite dependency
tree — but by plain recursion (`getTarBalls(object.dependencies)`,
upload.js line 91), not by a work list, and with no visited set: one task
runs per node occurrence, so the keys it processes are exactly the node
occurrences — an already-visited `name@version` reached again through
another parent is processed again (deduplication happens only later, in
`main`, by tarball path).  A cyclic object graph would recurse forever;
only finite trees (the shape `npm ls --json` produces) terminate. -/
theorem traversal_visits_every_occurrence (deps : List DepTree) :
    (visitKeys deps).length = nodeCount deps := by
  induction deps using visitKeys.induct with
  | case1 => simp [visitKeys, nodeCount]
  | case2 nm v r cs rest ih1 ih2 =>
    rw [visitKeys, nodeCount, List.length_cons, List.length_append, ih1, ih2]
    omega

/-- C4 counterexample: the claim says the traversal never revisits an
already-visited `name@version` key.  In the forest
`[a@1.0.0, b@1.0.0 → [a@1.0.0]]` the key `a@1.0.0` is visited first as a
root dependency and again as `b`'s child — it is processed twice. -/
theorem traversal_revisits_cex :
    (visitKeys
        [DepTree.node "a" "1.0.0" none [],
         DepTree.node "b" "1.0.0" none [DepTree.node "a" "1.0.0" none []]]).count
      "a@1.0.0" = 2 := by
  simp [visitKeys]

/-- C5 (amended): the conventional archive path is a pure function of the
ref — the formula of `getTarBalls` (upload.js line 81) and the one
recomputed in `createTarball` (line 134) agree for every name and version,
so the cache probe of a later fetch of the same ref always finds the file
a URL download wrote (third conjunct) — but it is not collision-free:
distinct refs can sanitise to the same file name (see
`path_collision_cex`). -/
theorem path_pure_function (name version : String) :
    tarballFileName name version = createTarballFileName name version ∧
    archivePathOf name version = createTarballWrittenPath name version ∧
    ∀ (packOutput : String → String → String) (fs : List String) (url : String),
      archivePathOf name version ∈
        (fetchArtifact packOutput fs name version (some url)).fs := by
  refine ⟨rfl, rfl, ?_⟩
  intro packOutput fs url
  rw [fetchArtifact.eq_def]
  by_cases hc : archivePathOf name version ∈ fs
  · rw [if_pos hc]
    exact hc
  · rw [if_neg hc]
    exact List.mem_cons_self _ _

/-- C5 counterexample: the claim says two refs differing in
`name@version` never share a path.  Sanitisation (`@` deleted, `/` to `-`)
is not injective: the scoped package `@a/b@1.0.0` and the plain package
`a-b@1.0.0` are distinct refs with the same conventional file name
`a-b-1.0.0.tgz`. -/
theorem path_collision_cex :
    tarballFileName "@a/b" "1.0.0" = tarballFileName "a-b" "1.0.0" ∧
    ("@a/b", "1.0.0") ≠ (("a-b", "1.0.0") : String × String) := by
  exact ⟨by decide, by decide⟩

/-- C6: whenever the artifact file for a ref already exists at the
conventional path, the `getTarBalls` task takes the `stat`-success branch
(upload.js lines 84-86): it pushes the ref's record tagged `Cached`,
performs no network transfer and no subprocess invocation (empty effect
list), and leaves the archive directory unchanged. -/
theorem cached_fetch_no_transfer (packOutput : String → String → String)
    (fs : List String) (name version : String) (resolved : Option String)
    (h : archivePathOf name version ∈ fs) :
    fetchArtifact packOutput fs name version resolved =
      { pushed := [(⟨archivePathOf name version, name, version⟩, Origin.Cached)],
        effects := [], fs := fs } := by
  rw [fetchArtifact.eq_def, if_pos h]

theorem cached_fetch_no_transfer_witness :
    archivePathOf "a" "1.0.0" ∈ [archivePathOf "a" "1.0.0"] ∧
    fetchArtifact tarballFileName [archivePathOf "a" "1.0.0"] "a" "1.0.0" none =
      { pushed := [(⟨archivePathOf "a" "1.0.0", "a", "1.0.0"⟩, Origin.Cached)],
        effects := [], fs := [archivePathOf "a" "1.0.0"] } :=
  ⟨List.mem_cons_self _ _,
   cached_fetch_no_transfer tarballFileName [archivePathOf "a" "1.0.0"]
     "a" "1.0.0" none (List.mem_cons_self _ _)⟩

/-- C7 (amended): the publish gate exists only in upload.js.  There,
`npm publish` is invoked exactly when the `npm view` existence check
reports absence, and when the registry holds the ref the task resolves
with the skip message after the single `npm view` call.  The
publish.js variant performs no existence check at all and always invokes
`npm publish`. -/
theorem publish_gate_upload_only (registryHas : String → String → Bool)
    (e : DepEntry) :
    (Effect.execNpmPublish e.tarball ∈ (publishTaskUpload registryHas e).2 ↔
      registryHas e.name e.version = false) ∧
    (registryHas e.name e.version = true →
      publishTaskUpload registryHas e =
        (PubOutcome.alreadyPublished ("Tarball already published: " ++ e.tarball),
         [Effect.execNpmView e.name e.version])) ∧
    (∀ t, publishTaskPublishJs t =
      (PubOutcome.published, [Effect.execNpmPublish t])) := by
  by_cases hr : registryHas e.name e.version = true
  · refine ⟨?_, fun _ => by rw [publishTaskUpload, if_pos hr], fun _ => rfl⟩
    rw [publishTaskUpload, if_pos hr]
    simp [hr]
  · have hrf : registryHas e.name e.version = false := by
      cases hh : registryHas e.name e.version
      · rfl
      · exact absurd hh hr
    refine ⟨?_, fun hcon => absurd hcon hr, fun _ => rfl⟩
    rw [publishTaskUpload, if_neg hr]
    simp [hrf]

theorem publish_gate_upload_only_witness :
    publishTaskUpload (fun _ _ => true) ⟨"./archives/a-1.0.0.tgz", "a", "1.0.0"⟩ =
      (PubOutcome.alreadyPublished
        ("Tarball already published: " ++ "./archives/a-1.0.0.tgz"),
       [Effect.execNpmView "a" "1.0.0"]) :=
  (publish_gate_upload_only (fun _ _ => true)
    ⟨"./archives/a-1.0.0.tgz", "a", "1.0.0"⟩).2.1 rfl

/-- C7 counterexample: the claim, whose cited code includes publish.js
lines 92-111, says publish first queries the registry and returns Skipped
without invoking the publish capability when the ref is already held.
The publish.js task ignores the registry state entirely: whatever the
registry holds (e.g. one that already has `a@1.0.0`), its effect list is
exactly one `npm publish` invocation and contains no existence query. -/
theorem publishjs_no_gate_cex :
    publishTaskPublishJs "./archives/a-1.0.0.tgz" =
      (PubOutcome.published, [Effect.execNpmPublish "./archives/a-1.0.0.tgz"]) ∧
    Effect.execNpmPublish "./archives/a-1.0.0.tgz" ∈
      (publishTaskPublishJs "./archives/a-1.0.0.tgz").2 :=
  ⟨rfl, List.mem_cons_self _ _⟩

/-- C9 (amended): the exit code reflects only whether `main` itself
rejected (fatal orchestration error → `process.exit(1)` in the `catch`
handlers); per-task fetch/publish failures are captured into scheduler
result slots that `main` never reads, so the process exits 0 no matter
how many tasks failed, and in upload.ps1 the collected error list is
printed but never turned into an exit status. -/
theorem exit_code_only_fatal {E V : Type} (e : E)
    (results otherResults : List (Sum E V)) :
    uploadJsExitCode (Except.ok results) = 0 ∧
    uploadJsExitCode (Except.error e : Except E (List (Sum E V))) = 1 ∧
    uploadJsExitCode (Except.ok results) = uploadJsExitCode (Except.ok otherResults) ∧
    publishJsExitCode (Except.ok results) = 0 ∧
    publishJsExitCode (Except.error e : Except E (List (Sum E V))) = 1 ∧
    ∀ errs : List String, uploadPs1ExitCode errs = 0 :=
  ⟨rfl, rfl, rfl, rfl, rfl, fun _ => rfl⟩

/-- C9 counterexample: a run whose publish phase failed (a captured
`Sum.inl` error sits in the result list, and in the ps1 variant a
non-empty collected error list) still exits with code 0 in all three
scripts, although the claim requires a non-zero exit code for any
unrecovered failure and an exit code reflecting emptiness of the error
list. -/
theorem exit_code_ignores_failures_cex :
    uploadJsExitCode (Except.ok [(Sum.inl "npm publish failed" : Sum String String)]) = 0 ∧
    publishJsExitCode (Except.ok [(Sum.inl "npm publish failed" : Sum String String)]) = 0 ∧
    uploadPs1ExitCode ["npm publish failed for a@1.0.0"] = 0 :=
  ⟨rfl, rfl, rfl⟩

end Nexus
